import Mathlib

/-!
Shallow embedding of the xarray-spatial pathfinding core (grid index,
barrier classifier, cell snapper, cost model interface, A* search engine,
path rasterizer).  The repository's visible files are notebook callers of
`xrspatial.a_star_search`; the engine itself is not among the source files,
so the definitions below are modelled from the specification document and
its description of each component.  Raster values, coordinates and costs
live in an arbitrary linear ordered commutative ring `K` (the intended
instantiation is the reals; concrete runs below use the integers, where
every definition evaluates by kernel reduction).
-/

set_option linter.unusedSectionVars false

deriving instance DecidableEq for Except

namespace Xrs

/-- A grid cell, addressed as a (row, column) pair. -/
abbrev Cell : Type := Nat × Nat

/-- Modelled from the spec: the error kinds of §7 (the pathfinding engine is
not among the source files).  `fuelExhausted` is an internal marker used by
the fuel-based loop; it is proved unreachable from the public entry point. -/
inductive Err : Type where
  | outOfBounds : Err
  | invalidStartOrGoal : Err
  | noValidCell : Err
  | noPathFound : Err
  | invalidConfiguration : Err
  | fuelExhausted : Err
deriving DecidableEq

/-- Modelled from the spec: a raster is a 2-D grid of numeric values,
row-major, with one coordinate sequence per axis, a declared "no data"
sentinel and a dtype tag (the engine is not among the source files). -/
structure Raster (K : Type) : Type where
  height : Nat
  width : Nat
  ys : List K
  xs : List K
  values : List K
  nodata : K
  dtype : String
deriving DecidableEq

variable {K : Type} [LinearOrderedCommRing K]

/-- Reads the raster value at a cell; `none` when the cell lies outside the
grid bounds (or the value buffer is too short). -/
def getValue (r : Raster K) (c : Cell) : Option K :=
  if c.1 < r.height ∧ c.2 < r.width then r.values.get? (c.1 * r.width + c.2)
  else none

/-- The raster value at a cell, with the no-data sentinel as the default for
missing entries. -/
def valueAt (r : Raster K) (c : Cell) : K :=
  (r.values.get? (c.1 * r.width + c.2)).getD r.nodata

/-- Modelled from the spec: the barrier classifier (§4.2, not among the
source files).  A cell is crossable iff it is in bounds and its value is
neither a configured barrier value nor the raster's no-data sentinel. -/
def is_crossable [DecidableEq K] (r : Raster K) (barriers : List K)
    (c : Cell) : Bool :=
  match getValue r c with
  | none => false
  | some v => decide (v ∉ barriers ∧ v ≠ r.nodata)

/-- Axis-aligned neighbor offsets (4-connectivity). -/
def offsets4 : List (Int × Int) := [(-1, 0), (1, 0), (0, -1), (0, 1)]

/-- Axis-aligned plus diagonal neighbor offsets (8-connectivity). -/
def offsets8 : List (Int × Int) :=
  offsets4 ++ [(-1, -1), (-1, 1), (1, -1), (1, 1)]

/-- Shifts a cell by an integer offset, returning `none` when the shifted
cell falls outside the grid bounds. -/
def shiftCell (r : Raster K) (c : Cell) (d : Int × Int) : Option Cell :=
  let nr : Int := (c.1 : Int) + d.1
  let nc : Int := (c.2 : Int) + d.2
  if 0 ≤ nr ∧ 0 ≤ nc ∧ nr < (r.height : Int) ∧ nc < (r.width : Int) then
    some (nr.toNat, nc.toNat)
  else none

/-- Modelled from the spec: the in-bounds neighbors of a cell under the
configured connectivity (4 = axis-aligned only, otherwise 8). -/
def neighbors (r : Raster K) (conn : Nat) (c : Cell) : List Cell :=
  (if conn = 4 then offsets4 else offsets8).filterMap (shiftCell r c)

/-- A traversable edge: the target is an in-bounds neighbor of the source
under the connectivity, and both cells are crossable. -/
def Edge [DecidableEq K] (r : Raster K) (bs : List K) (conn : Nat)
    (u v : Cell) : Prop :=
  is_crossable r bs u = true ∧ is_crossable r bs v = true ∧
    v ∈ neighbors r conn u

instance [DecidableEq K] (r : Raster K) (bs : List K) (conn : Nat)
    (u v : Cell) : Decidable (Edge r bs conn u v) := by
  unfold Edge; infer_instance

/-- Modelled from the spec: a path is a nonempty sequence of crossable
cells, each consecutive pair being neighbors under the connectivity. -/
def IsPath [DecidableEq K] (r : Raster K) (bs : List K) (conn : Nat) :
    List Cell → Prop
  | [] => False
  | [c] => is_crossable r bs c = true
  | a :: b :: t =>
      is_crossable r bs a = true ∧ b ∈ neighbors r conn a ∧
        IsPath r bs conn (b :: t)

def decIsPath [DecidableEq K] (r : Raster K) (bs : List K) (conn : Nat) :
    (p : List Cell) → Decidable (IsPath r bs conn p)
  | [] => .isFalse (fun h => h)
  | [c] =>
      if h : is_crossable r bs c = true then .isTrue h else .isFalse h
  | a :: b :: t => by
      have d := decIsPath r bs conn (b :: t)
      show Decidable (_ ∧ _ ∧ _)
      exact instDecidableAnd

instance [DecidableEq K] (r : Raster K) (bs : List K) (conn : Nat)
    (p : List Cell) : Decidable (IsPath r bs conn p) := decIsPath r bs conn p

/-- A valid connecting sequence from `s` to `t`. -/
def Connects [DecidableEq K] (r : Raster K) (bs : List K) (conn : Nat)
    (s t : Cell) (p : List Cell) : Prop :=
  IsPath r bs conn p ∧ p.head? = some s ∧ p.getLast? = some t

instance [DecidableEq K] (r : Raster K) (bs : List K) (conn : Nat)
    (s t : Cell) (p : List Cell) : Decidable (Connects r bs conn s t p) := by
  unfold Connects; infer_instance

/-- The total cost of a sequence of cells: the sum of the edge costs of its
consecutive pairs. -/
def pathCost (w : Cell → Cell → K) : List Cell → K
  | [] => 0
  | [_] => 0
  | a :: b :: t => w a b + pathCost w (b :: t)

/-- Modelled from the spec: the coordinate envelope of one axis (§4.1, not
among the source files) — the half-open interval spanned by the axis's
coordinate sequence, extended by half a cell on each end, with the cell
size taken as the average spacing of the sequence.  The test is stated
multiplied through by twice the number of spacings, which clears the
denominator of the half-cell width `(b - a) / (2 * (n - 1))`. -/
def inEnv (l : List K) (x : K) : Bool :=
  match l.head?, l.getLast? with
  | some a, some b =>
      let m : K := 2 * ((l.length : K) - 1)
      decide (m * a - (b - a) ≤ m * x ∧ m * x < m * b + (b - a))
  | _, _ => false

/-- The index of the coordinate-sequence entry nearest to the query
coordinate (earliest index on ties); 0 for an empty sequence. -/
def nearestIdx (l : List K) (x : K) : Nat :=
  (l.enum.foldl
    (fun (best : Option (Nat × K)) (p : Nat × K) =>
      let d := |x - p.2|
      match best with
      | none => some (p.1, d)
      | some b => if d < b.2 then some (p.1, d) else some b)
    none).elim 0 Prod.fst

/-- Modelled from the spec: the grid index's point-to-cell mapping (§4.1,
not among the source files).  Fails with `OutOfBounds` when either
coordinate of the point lies outside the axis's envelope. -/
def to_cell (r : Raster K) (p : K × K) : Except Err Cell :=
  if inEnv r.xs p.1 = true ∧ inEnv r.ys p.2 = true then
    Except.ok (nearestIdx r.ys p.2, nearestIdx r.xs p.1)
  else Except.error Err.outOfBounds

/-- The offsets at Chebyshev distance `rad` from a cell, in row-major
order. -/
def ringOffsets (rad : Nat) : List (Int × Int) :=
  (List.range (2 * rad + 1)).flatMap (fun i =>
    (List.range (2 * rad + 1)).filterMap (fun j =>
      let dr : Int := (i : Int) - (rad : Int)
      let dc : Int := (j : Int) - (rad : Int)
      if max dr.natAbs dc.natAbs = rad then some (dr, dc) else none))

/-- Modelled from the spec: the cell snapper (§4.3, not among the source
files).  A crossable cell is returned unchanged; otherwise rings of
increasing Chebyshev radius are scanned in row-major order (full
8-neighborhood geometry, independent of the search connectivity) and the
first crossable cell found is returned.  `none` when no crossable cell
exists. -/
def snap [DecidableEq K] (r : Raster K) (bs : List K) (c : Cell) :
    Option Cell :=
  if is_crossable r bs c then some c
  else
    (List.range (r.height + r.width + 1)).findSome? (fun rad =>
      (ringOffsets rad).findSome? (fun d =>
        match shiftCell r c d with
        | some c' => if is_crossable r bs c' then some c' else none
        | none => none))

/-- Modelled from the spec: the path rasterizer (§4.6, not among the source
files).  Produces a new raster identical to the template in shape, dtype
and coordinate sequences; path cells carry the marker value 1 and every
other cell holds the template's no-data sentinel. -/
def rasterize (p : List Cell) (r : Raster K) : Raster K :=
  { r with values :=
      (List.range (r.height * r.width)).map (fun i =>
        if (i / r.width, i % r.width) ∈ p then (1 : K) else r.nodata) }

/-- The search configuration held by the engine: barrier values,
connectivity, the edge-cost function of the cost model and the heuristic
(as a function of a cell and the goal cell). -/
structure Cfg (K : Type) : Type where
  barriers : List K
  conn : Nat
  w : Cell → Cell → K
  hfn : Cell → Cell → K

/-- Modelled from the spec: the search state of §4.5 (not among the source
files) — the open list in discovery order, the closed set, the best-known
cost-from-start map and the predecessor map, together with the (read-only)
input raster threaded through the computation. -/
structure AState (K : Type) : Type where
  raster : Raster K
  openL : List Cell
  closed : Finset Cell
  g : Cell → Option K
  pred : Cell → Option Cell

/-- The estimated total cost of an open cell (cost-from-start plus
heuristic); 0 when the cell has no recorded cost (never the case for open
cells). -/
def fEst (cfg : Cfg K) (goal : Cell) (σ : AState K) (c : Cell) : K :=
  match σ.g c with
  | some gc => gc + cfg.hfn c goal
  | none => 0

/-- The element of the list minimizing `f`, preferring the earliest on
ties (stable selection). -/
def argminStable (f : Cell → K) : List Cell → Option Cell
  | [] => none
  | a :: t =>
      match argminStable f t with
      | none => some a
      | some b => if f b < f a then some b else some a

/-- One relaxation: if the neighbor is not closed and is crossable, and the
tentative cost through the selected cell improves on (or first sets) its
known cost, record the new cost and back-pointer, opening the neighbor if
it was unvisited. -/
def relax [DecidableEq K] (cfg : Cfg K) (u : Cell) (σ : AState K)
    (v : Cell) : AState K :=
  if v ∈ σ.closed then σ
  else if is_crossable σ.raster cfg.barriers v then
    match σ.g u with
    | none => σ
    | some gu =>
        let t := gu + cfg.w u v
        match σ.g v with
        | none =>
            { σ with openL := σ.openL ++ [v],
                     g := fun c => if c = v then some t else σ.g c,
                     pred := fun c => if c = v then some u else σ.pred c }
        | some gv =>
            if t < gv then
              { σ with g := fun c => if c = v then some t else σ.g c,
                       pred := fun c => if c = v then some u else σ.pred c }
            else σ
  else σ

/-- Relaxes every neighbor of the selected cell. -/
def expand [DecidableEq K] (cfg : Cfg K) (u : Cell) (σ : AState K) :
    AState K :=
  (neighbors σ.raster cfg.conn u).foldl (relax cfg u) σ

/-- Reconstructs the path to a cell by following back-pointers to the
start (the unique cell with no back-pointer), then reversing. -/
def reconstruct (pred : Cell → Option Cell) : Nat → Cell → Option (List Cell)
  | 0, _ => none
  | n + 1, c =>
      match pred c with
      | none => some [c]
      | some u => (reconstruct pred n u).map (· ++ [c])

/-- Modelled from the spec: the A* main loop (§4.5, not among the source
files).  Repeatedly selects the open cell with the lowest estimated total
cost (stable on ties), terminates successfully when it is the goal, and
otherwise closes it and relaxes its neighbors.  An empty open list means
no path exists.  The final state is returned alongside the result. -/
def aLoop [DecidableEq K] (cfg : Cfg K) (goal : Cell) :
    Nat → AState K → Except Err (List Cell) × AState K
  | 0, σ => (Except.error Err.fuelExhausted, σ)
  | n + 1, σ =>
      match argminStable (fEst cfg goal σ) σ.openL with
      | none => (Except.error Err.noPathFound, σ)
      | some u =>
          if u = goal then
            match reconstruct σ.pred (σ.raster.height * σ.raster.width + 1) u with
            | some p => (Except.ok p, σ)
            | none => (Except.error Err.fuelExhausted, σ)
          else
            aLoop cfg goal n
              (expand cfg u
                { σ with openL := σ.openL.erase u,
                         closed := insert u σ.closed })

/-- The initial search state: the start cell is open with cost 0. -/
def initState (r : Raster K) (start : Cell) : AState K :=
  { raster := r
    openL := [start]
    closed := ∅
    g := fun c => if c = start then some (0 : K) else none
    pred := fun _ => none }

/-- Runs the search engine, returning the result and the final state. -/
def aStarRun [DecidableEq K] (r : Raster K) (cfg : Cfg K)
    (start goal : Cell) : Except Err (List Cell) × AState K :=
  aLoop cfg goal (r.height * r.width + 1) (initState r start)

/-- Modelled from the spec: the search engine's contract
`search(start_cell, goal_cell, connectivity) -> Path` (§4.5, not among the
source files). -/
def search [DecidableEq K] (r : Raster K) (cfg : Cfg K)
    (start goal : Cell) : Except Err (List Cell) :=
  (aStarRun r cfg start goal).1

/-- Modelled from the spec: endpoint resolution (§6, §7, not among the
source files) — maps both query points to cells (OutOfBounds), rejects a
non-crossable endpoint whose snap option is disabled (InvalidStartOrGoal),
validates the connectivity, then snaps both endpoints (NoValidCell). -/
def resolve_endpoints [DecidableEq K] (r : Raster K) (sp gp : K × K)
    (bs : List K) (snapA snapB : Bool) (conn : Nat) :
    Except Err (Cell × Cell) :=
  match to_cell r sp with
  | Except.error e => Except.error e
  | Except.ok sc =>
    match to_cell r gp with
    | Except.error e => Except.error e
    | Except.ok gc =>
      if (snapA = false ∧ is_crossable r bs sc = false) ∨
         (snapB = false ∧ is_crossable r bs gc = false) then
        Except.error Err.invalidStartOrGoal
      else if conn = 4 ∨ conn = 8 then
        match snap r bs sc with
        | none => Except.error Err.noValidCell
        | some sc' =>
          match snap r bs gc with
          | none => Except.error Err.noValidCell
          | some gc' => Except.ok (sc', gc')
      else Except.error Err.invalidConfiguration

/-- Modelled from the spec: the full pathfinding operation (§6, not among
the source files), threaded with the caller's raster: the second component
is the caller's buffer after the call (as carried through the engine
state), the first the typed result. -/
def a_star_run [DecidableEq K] (r : Raster K) (sp gp : K × K) (bs : List K)
    (snapA snapB : Bool) (conn : Nat) (w hfn : Cell → Cell → K) :
    Except Err (Raster K) × Raster K :=
  match resolve_endpoints r sp gp bs snapA snapB conn with
  | Except.error e => (Except.error e, r)
  | Except.ok (sc, gc) =>
      let cfg : Cfg K := ⟨bs, conn, w, hfn⟩
      let res := aStarRun r cfg sc gc
      (res.1.map (fun p => rasterize p r), res.2.raster)

/-- Modelled from the spec: the public operation, returning the output
raster or a typed failure. -/
def a_star_search [DecidableEq K] (r : Raster K) (sp gp : K × K)
    (bs : List K) (snapA snapB : Bool) (conn : Nat)
    (w hfn : Cell → Cell → K) : Except Err (Raster K) :=
  (a_star_run r sp gp bs snapA snapB conn w hfn).1

/-! Basic lemmas about the data model. -/

theorem getValue_eq_valueAt (r : Raster K) (c : Cell)
    (hwf : r.values.length = r.height * r.width)
    (h1 : c.1 < r.height) (h2 : c.2 < r.width) :
    getValue r c = some (valueAt r c) := by
  have hlt : c.1 * r.width + c.2 < r.values.length := by
    rw [hwf]
    calc c.1 * r.width + c.2 < c.1 * r.width + r.width := by omega
      _ = (c.1 + 1) * r.width := by ring
      _ ≤ r.height * r.width := Nat.mul_le_mul_right _ h1
  unfold getValue valueAt
  rw [if_pos ⟨h1, h2⟩, List.get?_eq_get hlt]
  rfl

theorem is_crossable_inBounds [DecidableEq K] (r : Raster K) (bs : List K)
    (c : Cell) (h : is_crossable r bs c = true) :
    c.1 < r.height ∧ c.2 < r.width := by
  unfold is_crossable getValue at h
  by_cases hb : c.1 < r.height ∧ c.2 < r.width
  · exact hb
  · rw [if_neg hb] at h
    exact absurd h (by simp)

/-! Lemmas about the loop state's raster field, for the frame property. -/

theorem relax_raster [DecidableEq K] (cfg : Cfg K) (u : Cell) (σ : AState K)
    (v : Cell) : (relax cfg u σ v).raster = σ.raster := by
  unfold relax
  repeat' first | rfl | split | dsimp only

theorem foldl_relax_raster [DecidableEq K] (cfg : Cfg K) (u : Cell) :
    ∀ (l : List Cell) (σ : AState K),
      (l.foldl (relax cfg u) σ).raster = σ.raster := by
  intro l
  induction l with
  | nil => intro σ; rfl
  | cons a t ih =>
      intro σ
      simp only [List.foldl_cons]
      rw [ih, relax_raster]

theorem expand_raster [DecidableEq K] (cfg : Cfg K) (u : Cell)
    (σ : AState K) : (expand cfg u σ).raster = σ.raster :=
  foldl_relax_raster cfg u _ σ

theorem aLoop_raster [DecidableEq K] (cfg : Cfg K) (goal : Cell) :
    ∀ (n : Nat) (σ : AState K), ((aLoop cfg goal n σ).2).raster = σ.raster := by
  intro n
  induction n with
  | zero => intro σ; rfl
  | succ n ih =>
      intro σ
      rw [aLoop]
      cases harg : argminStable (fEst cfg goal σ) σ.openL with
      | none => rfl
      | some u =>
          simp only
          by_cases hu : u = goal
          · rw [if_pos hu]
            cases hrec : reconstruct σ.pred (σ.raster.height * σ.raster.width + 1) u with
            | none => rfl
            | some p => rfl
          · rw [if_neg hu]
            rw [ih, expand_raster]

theorem to_cell_error (r : Raster K) (p : K × K)
    (h : ¬(inEnv r.xs p.1 = true ∧ inEnv r.ys p.2 = true)) :
    to_cell r p = Except.error Err.outOfBounds := by
  unfold to_cell
  rw [if_neg h]

/-- A sample 2×2 integer raster (value 0 at cell (0,1), no-data −1). -/
def sample2 : Raster ℤ :=
  { height := 2, width := 2, ys := [0, 1], xs := [0, 1],
    values := [1, 0, 1, 1], nodata := -1, dtype := "int" }

/-- Claim C6: a cell is crossable iff it lies inside the grid bounds, its
value is not in the configured barrier set, and its value is not the
raster's no-data sentinel. -/
theorem crossable_characterization [DecidableEq K] (r : Raster K)
    (bs : List K) (c : Cell)
    (hwf : r.values.length = r.height * r.width) :
    is_crossable r bs c = true ↔
      c.1 < r.height ∧ c.2 < r.width ∧
        valueAt r c ∉ bs ∧ valueAt r c ≠ r.nodata := by
  constructor
  · intro h
    obtain ⟨h1, h2⟩ := is_crossable_inBounds r bs c h
    unfold is_crossable at h
    rw [getValue_eq_valueAt r c hwf h1 h2] at h
    simp only [decide_eq_true_eq] at h
    exact ⟨h1, h2, h.1, h.2⟩
  · rintro ⟨h1, h2, h3, h4⟩
    unfold is_crossable
    rw [getValue_eq_valueAt r c hwf h1 h2]
    simp only [decide_eq_true_eq]
    exact ⟨h3, h4⟩

theorem crossable_characterization_witness :
    is_crossable sample2 [0] (1, 0) = true ↔
      (1, 0).1 < sample2.height ∧ (1, 0).2 < sample2.width ∧
        valueAt sample2 (1, 0) ∉ [0] ∧ valueAt sample2 (1, 0) ≠ sample2.nodata :=
  crossable_characterization sample2 [0] (1, 0) (by decide)

/-- Claim C9: snapping is idempotent on crossable cells: a cell that is
already crossable is returned unchanged, so a second snap returns the same
cell. -/
theorem snap_idempotent [DecidableEq K] (r : Raster K) (bs : List K)
    (c : Cell) (h : is_crossable r bs c = true) :
    snap r bs c = some c ∧ (snap r bs c).bind (snap r bs) = some c := by
  have h1 : snap r bs c = some c := by
    unfold snap
    rw [if_pos h]
  refine ⟨h1, ?_⟩
  rw [h1, Option.some_bind]
  exact h1

theorem snap_idempotent_witness :
    snap sample2 [0] (0, 0) = some (0, 0) ∧
      (snap sample2 [0] (0, 0)).bind (snap sample2 [0]) = some (0, 0) :=
  snap_idempotent sample2 [0] (0, 0) (by decide)

/-- Claim C10: the barriers option is a plain list of raw values; with the
one-element list [0], a cell is crossable exactly when it has an in-bounds
value different from 0 and from the no-data sentinel — so every cell of
value 0 is non-crossable. -/
theorem barriers_zero_list [DecidableEq K] (r : Raster K) (c : Cell) :
    is_crossable r [0] c = true ↔
      ∃ v, getValue r c = some v ∧ v ≠ 0 ∧ v ≠ r.nodata := by
  unfold is_crossable
  cases hg : getValue r c with
  | none => simp
  | some v =>
      simp only [decide_eq_true_eq, List.mem_singleton, Option.some.injEq]
      constructor
      · rintro ⟨h1, h2⟩
        exact ⟨v, rfl, h1, h2⟩
      · rintro ⟨v', hv', h1, h2⟩
        cases hv'
        exact ⟨h1, h2⟩

/-- Claim C7: the path rasterizer produces a raster identical to the
template in shape, dtype and coordinate sequences, with exactly the path
cells carrying the marker value and all other cells the no-data
sentinel. -/
theorem rasterize_spec (p : List Cell) (r : Raster K)
    (hwf : r.values.length = r.height * r.width) :
    (rasterize p r).height = r.height ∧ (rasterize p r).width = r.width ∧
      (rasterize p r).ys = r.ys ∧ (rasterize p r).xs = r.xs ∧
      (rasterize p r).dtype = r.dtype ∧
      (rasterize p r).values.length = r.values.length ∧
      ∀ c : Cell, c.1 < r.height → c.2 < r.width →
        getValue (rasterize p r) c =
          some (if c ∈ p then (1 : K) else r.nodata) := by
  refine ⟨rfl, rfl, rfl, rfl, rfl, ?_, ?_⟩
  · simp only [rasterize, List.length_map, List.length_range]
    omega
  · intro c h1 h2
    have hw : 0 < r.width := Nat.lt_of_le_of_lt (Nat.zero_le _) h2
    have hidx : c.1 * r.width + c.2 < r.height * r.width := by
      calc c.1 * r.width + c.2 < c.1 * r.width + r.width := by omega
        _ = (c.1 + 1) * r.width := by ring
        _ ≤ r.height * r.width := Nat.mul_le_mul_right _ h1
    show (if c.1 < r.height ∧ c.2 < r.width then _ else none) = _
    rw [if_pos ⟨h1, h2⟩]
    show ((List.range (r.height * r.width)).map _).get? (c.1 * r.width + c.2) = _
    rw [List.get?_map, List.get?_range hidx]
    have hdiv : (c.1 * r.width + c.2) / r.width = c.1 := by
      rw [Nat.mul_comm c.1 r.width, Nat.mul_add_div hw, Nat.div_eq_of_lt h2,
        Nat.add_zero]
    have hmod : (c.1 * r.width + c.2) % r.width = c.2 := by
      rw [Nat.mul_comm c.1 r.width, Nat.mul_add_mod, Nat.mod_eq_of_lt h2]
    simp only [Option.map_some', hdiv, hmod]

theorem rasterize_spec_witness :
    (rasterize [(0, 0)] sample2).height = sample2.height ∧
      (rasterize [(0, 0)] sample2).width = sample2.width ∧
      (rasterize [(0, 0)] sample2).ys = sample2.ys ∧
      (rasterize [(0, 0)] sample2).xs = sample2.xs ∧
      (rasterize [(0, 0)] sample2).dtype = sample2.dtype ∧
      (rasterize [(0, 0)] sample2).values.length = sample2.values.length ∧
      ∀ c : Cell, c.1 < sample2.height → c.2 < sample2.width →
        getValue (rasterize [(0, 0)] sample2) c =
          some (if c ∈ [((0 : Nat), (0 : Nat))] then (1 : ℤ) else sample2.nodata) :=
  rasterize_spec [(0, 0)] sample2 (by decide)

/-- Claim C4: a start or goal point outside the raster's coordinate
envelope makes the operation fail with OutOfBounds, for every combination
of snap settings. -/
theorem out_of_bounds_regardless_of_snap [DecidableEq K] (r : Raster K)
    (sp gp : K × K) (bs : List K) (snapA snapB : Bool) (conn : Nat)
    (w hfn : Cell → Cell → K)
    (h : ¬inEnv r.xs sp.1 = true ∨ ¬inEnv r.ys sp.2 = true ∨
      ¬inEnv r.xs gp.1 = true ∨ ¬inEnv r.ys gp.2 = true) :
    a_star_search r sp gp bs snapA snapB conn w hfn =
      Except.error Err.outOfBounds := by
  unfold a_star_search a_star_run resolve_endpoints
  by_cases h1 : inEnv r.xs sp.1 = true ∧ inEnv r.ys sp.2 = true
  · have h2 : ¬(inEnv r.xs gp.1 = true ∧ inEnv r.ys gp.2 = true) := by tauto
    have hsp : to_cell r sp =
        Except.ok (nearestIdx r.ys sp.2, nearestIdx r.xs sp.1) := by
      unfold to_cell
      rw [if_pos h1]
    rw [hsp, to_cell_error r gp h2]
  · rw [to_cell_error r sp h1]

theorem out_of_bounds_witness :
    a_star_search sample2 (99, 0) (0, 0) [0] true true 8
        (fun _ _ => 1) (fun _ _ => 0) = Except.error Err.outOfBounds :=
  out_of_bounds_regardless_of_snap sample2 (99, 0) (0, 0) [0] true true 8
    (fun _ _ => 1) (fun _ _ => 0) (Or.inl (by decide))

/-- Claim C5: when the snap option of an endpoint is disabled and that
endpoint's cell is not crossable, the operation fails with
InvalidStartOrGoal (and so never produces a path or an empty result). -/
theorem invalid_endpoint_fails [DecidableEq K] (r : Raster K) (sp gp : K × K)
    (bs : List K) (snapA snapB : Bool) (conn : Nat)
    (w hfn : Cell → Cell → K) (sc gc : Cell)
    (hsc : to_cell r sp = Except.ok sc) (hgc : to_cell r gp = Except.ok gc)
    (h : (snapA = false ∧ is_crossable r bs sc = false) ∨
      (snapB = false ∧ is_crossable r bs gc = false)) :
    a_star_search r sp gp bs snapA snapB conn w hfn =
      Except.error Err.invalidStartOrGoal := by
  unfold a_star_search a_star_run resolve_endpoints
  rw [hsc, hgc]
  dsimp only
  rw [if_pos h]

theorem invalid_endpoint_fails_witness :
    a_star_search sample2 (1, 0) (0, 1) [0] false false 8
        (fun _ _ => 1) (fun _ _ => 0) = Except.error Err.invalidStartOrGoal :=
  invalid_endpoint_fails sample2 (1, 0) (0, 1) [0] false false 8
    (fun _ _ => 1) (fun _ _ => 0) (0, 1) (1, 0) (by decide) (by decide)
    (Or.inl ⟨rfl, by decide⟩)

/-- Claim C8: the operation never mutates the caller's raster: the buffer
threaded through the engine state and returned alongside the result is the
input raster itself, whether the call succeeds or fails. -/
theorem input_raster_unchanged [DecidableEq K] (r : Raster K)
    (sp gp : K × K) (bs : List K) (snapA snapB : Bool) (conn : Nat)
    (w hfn : Cell → Cell → K) :
    (a_star_run r sp gp bs snapA snapB conn w hfn).2 = r := by
  unfold a_star_run
  cases hres : resolve_endpoints r sp gp bs snapA snapB conn with
  | error e => rfl
  | ok pr =>
      obtain ⟨sc, gc⟩ := pr
      show ((aStarRun r ⟨bs, conn, w, hfn⟩ sc gc).2).raster = r
      unfold aStarRun
      rw [aLoop_raster]
      rfl

/-! Lemmas about stable minimum selection. -/

theorem argminStable_eq_none (f : Cell → K) :
    ∀ l : List Cell, argminStable f l = none ↔ l = [] := by
  intro l
  cases l with
  | nil => simp [argminStable]
  | cons a t =>
      simp only [argminStable]
      cases argminStable f t with
      | none => simp
      | some b =>
          simp only
          constructor
          · intro h
            by_cases hfb : f b < f a
            · rw [if_pos hfb] at h; exact absurd h (by simp)
            · rw [if_neg hfb] at h; exact absurd h (by simp)
          · intro h; exact absurd h (by simp)

theorem argminStable_mem (f : Cell → K) :
    ∀ (l : List Cell) (u : Cell), argminStable f l = some u → u ∈ l := by
  intro l
  induction l with
  | nil => intro u h; exact absurd h (by simp [argminStable])
  | cons a t ih =>
      intro u h
      simp only [argminStable] at h
      cases ht : argminStable f t with
      | none =>
          rw [ht] at h
          simp only [Option.some.injEq] at h
          subst h
          exact List.mem_cons_self a t
      | some b =>
          rw [ht] at h
          simp only at h
          by_cases hfb : f b < f a
          · rw [if_pos hfb] at h
            simp only [Option.some.injEq] at h
            subst h
            exact List.mem_cons_of_mem a (ih b ht)
          · rw [if_neg hfb] at h
            simp only [Option.some.injEq] at h
            subst h
            exact List.mem_cons_self a t

theorem argminStable_min (f : Cell → K) :
    ∀ (l : List Cell) (u : Cell), argminStable f l = some u →
      ∀ x ∈ l, f u ≤ f x := by
  intro l
  induction l with
  | nil => intro u h; exact absurd h (by simp [argminStable])
  | cons a t ih =>
      intro u h x hx
      simp only [argminStable] at h
      cases ht : argminStable f t with
      | none =>
          rw [ht] at h
          simp only [Option.some.injEq] at h
          subst h
          have ht' : t = [] := (argminStable_eq_none f t).mp ht
          subst ht'
          simp only [List.mem_singleton] at hx
          rw [hx]
      | some b =>
          rw [ht] at h
          simp only at h
          rcases List.mem_cons.mp hx with hxa | hxt
          · rw [hxa]
            by_cases hfb : f b < f a
            · rw [if_pos hfb] at h
              simp only [Option.some.injEq] at h
              subst h
              exact le_of_lt hfb
            · rw [if_neg hfb] at h
              simp only [Option.some.injEq] at h
              subst h
              exact le_refl _
          · by_cases hfb : f b < f a
            · rw [if_pos hfb] at h
              simp only [Option.some.injEq] at h
              subst h
              exact ih b ht x hxt
            · rw [if_neg hfb] at h
              simp only [Option.some.injEq] at h
              subst h
              exact le_trans (not_lt.mp hfb) (ih b ht x hxt)

/-! Lemmas about paths as lists. -/

section PathLemmas

variable [DecidableEq K] (r : Raster K) (bs : List K) (conn : Nat)

theorem isPath_cross :
    ∀ p : List Cell, IsPath r bs conn p →
      ∀ c ∈ p, is_crossable r bs c = true := by
  intro p
  induction p with
  | nil => intro h; exact absurd h (by simp [IsPath])
  | cons a t ih =>
      intro h c hc
      cases t with
      | nil =>
          simp only [List.mem_singleton] at hc
          subst hc
          exact h
      | cons b t' =>
          obtain ⟨ha, _, hrest⟩ := h
          rcases List.mem_cons.mp hc with hca | hct
          · subst hca; exact ha
          · exact ih hrest c hct

theorem isPath_snoc_decomp :
    ∀ (p : List Cell) (v : Cell), p ≠ [] → IsPath r bs conn (p ++ [v]) →
      IsPath r bs conn p ∧ is_crossable r bs v = true ∧
        ∃ u, p.getLast? = some u ∧ v ∈ neighbors r conn u := by
  intro p
  induction p with
  | nil => intro v h; exact absurd rfl h
  | cons a t ih =>
      intro v _ hp
      cases t with
      | nil =>
          obtain ⟨ha, hnb, hv⟩ := hp
          exact ⟨ha, hv, a, rfl, hnb⟩
      | cons b t' =>
          obtain ⟨ha, hnb, hrest⟩ := hp
          obtain ⟨h1, h2, u, hu, hnv⟩ := ih v (by simp) hrest
          refine ⟨⟨ha, hnb, h1⟩, h2, u, ?_, hnv⟩
          rw [List.getLast?_cons_cons]
          exact hu

theorem isPath_snoc :
    ∀ (p : List Cell) (u v : Cell), IsPath r bs conn p →
      p.getLast? = some u → is_crossable r bs v = true →
      v ∈ neighbors r conn u → IsPath r bs conn (p ++ [v]) := by
  intro p
  induction p with
  | nil => intro u v h; exact absurd h (by simp [IsPath])
  | cons a t ih =>
      intro u v hp hl hv hn
      cases t with
      | nil =>
          simp only [List.getLast?_singleton, Option.some.injEq] at hl
          subst hl
          exact ⟨hp, hn, hv⟩
      | cons b t' =>
          obtain ⟨ha, hnb, hrest⟩ := hp
          rw [List.getLast?_cons_cons] at hl
          exact ⟨ha, hnb, ih u v hrest hl hv hn⟩

end PathLemmas

theorem pathCost_snoc (w : Cell → Cell → K) :
    ∀ (p : List Cell) (u v : Cell), p.getLast? = some u →
      pathCost w (p ++ [v]) = pathCost w p + w u v := by
  intro p
  induction p with
  | nil => intro u v h; exact absurd h (by simp)
  | cons a t ih =>
      intro u v hl
      cases t with
      | nil =>
          simp only [List.getLast?_singleton, Option.some.injEq] at hl
          subst hl
          show w a v + pathCost w [v] = pathCost w [a] + w a v
          simp [pathCost]
      | cons b t' =>
          rw [List.getLast?_cons_cons] at hl
          show w a b + pathCost w ((b :: t') ++ [v]) =
            w a b + pathCost w (b :: t') + w u v
          rw [ih u v hl]
          ring

theorem mem_of_getLast_eq {α : Type} :
    ∀ (l : List α) (a : α), l.getLast? = some a → a ∈ l := by
  intro l
  induction l with
  | nil => intro a h; exact absurd h (by simp)
  | cons x t ih =>
      intro a h
      cases t with
      | nil =>
          simp only [List.getLast?_singleton, Option.some.injEq] at h
          rw [h]
          exact List.mem_cons_self a []
      | cons y t' =>
          rw [List.getLast?_cons_cons] at h
          exact List.mem_cons_of_mem x (ih a h)

/-! The search invariant and its consequences. -/

/-- The crossable in-bounds cells of a raster, as a finite set. -/
def validCells [DecidableEq K] (r : Raster K) (bs : List K) : Finset Cell :=
  ((Finset.range r.height) ×ˢ (Finset.range r.width)).filter
    (fun c => is_crossable r bs c = true)

theorem mem_validCells [DecidableEq K] (r : Raster K) (bs : List K)
    (c : Cell) : c ∈ validCells r bs ↔ is_crossable r bs c = true := by
  unfold validCells
  rw [Finset.mem_filter]
  constructor
  · intro h; exact h.2
  · intro h
    obtain ⟨h1, h2⟩ := is_crossable_inBounds r bs c h
    exact ⟨Finset.mem_product.mpr ⟨Finset.mem_range.mpr h1,
      Finset.mem_range.mpr h2⟩, h⟩

theorem validCells_card [DecidableEq K] (r : Raster K) (bs : List K) :
    (validCells r bs).card ≤ r.height * r.width := by
  calc (validCells r bs).card
      ≤ ((Finset.range r.height) ×ˢ (Finset.range r.width)).card :=
        Finset.card_filter_le _ _
    _ = r.height * r.width := by
        rw [Finset.card_product, Finset.card_range, Finset.card_range]

/-- The cost model yields strictly positive costs on traversable edges
(true of the spec's cost model: orthogonal costs are physical cell sizes,
diagonal costs their Euclidean combination). -/
def WPos [DecidableEq K] (r : Raster K) (cfg : Cfg K) : Prop :=
  ∀ u v, Edge r cfg.barriers cfg.conn u v → 0 < cfg.w u v

/-- The heuristic is consistent (monotone) along traversable edges, as §4.5
requires of the Euclidean heuristic. -/
def HCons [DecidableEq K] (r : Raster K) (cfg : Cfg K) (goal : Cell) : Prop :=
  ∀ u v, Edge r cfg.barriers cfg.conn u v →
    cfg.hfn u goal ≤ cfg.w u v + cfg.hfn v goal

theorem hfn_telescope [DecidableEq K] (r : Raster K) (cfg : Cfg K)
    (goal : Cell) (hh : HCons r cfg goal) :
    ∀ (p : List Cell) (s t : Cell),
      Connects r cfg.barriers cfg.conn s t p →
      cfg.hfn s goal ≤ pathCost cfg.w p + cfg.hfn t goal := by
  intro p
  induction p with
  | nil => intro s t hc; exact absurd hc.2.1 (by simp)
  | cons a tl ih =>
      intro s t hc
      obtain ⟨hp, hhead, hlast⟩ := hc
      simp only [List.head?_cons, Option.some.injEq] at hhead
      cases tl with
      | nil =>
          simp only [List.getLast?_singleton, Option.some.injEq] at hlast
          rw [← hhead, ← hlast]
          show cfg.hfn a goal ≤ pathCost cfg.w [a] + cfg.hfn a goal
          simp [pathCost]
      | cons b tl' =>
          obtain ⟨ha, hnb, hrest⟩ := hp
          have hb : is_crossable r cfg.barriers b = true :=
            isPath_cross r cfg.barriers cfg.conn (b :: tl') hrest b
              (List.mem_cons_self b tl')
          have hedge : Edge r cfg.barriers cfg.conn a b := ⟨ha, hb, hnb⟩
          have h1 := hh a b hedge
          rw [List.getLast?_cons_cons] at hlast
          have h2 := ih b t ⟨hrest, List.head?_cons, hlast⟩
          rw [← hhead]
          show cfg.hfn a goal ≤ cfg.w a b + pathCost cfg.w (b :: tl') +
            cfg.hfn t goal
          linarith

/-- Modelled from the spec: the state-machine invariant of the A* loop
(§4.5) — open/closed bookkeeping is consistent, recorded costs are
nonnegative and locally justified by predecessor edges, closed cells are
fully relaxed and carry a cost below every connecting sequence's cost, and
the goal is never closed. -/
structure Inv [DecidableEq K] (r : Raster K) (cfg : Cfg K)
    (start goal : Cell) (σ : AState K) : Prop where
  rEq : σ.raster = r
  nodup : σ.openL.Nodup
  mem_openL : ∀ c, c ∈ σ.openL ↔ ((∃ q, σ.g c = some q) ∧ c ∉ σ.closed)
  closed_disc : ∀ c ∈ σ.closed, ∃ q, σ.g c = some q
  disc_cross : ∀ c q, σ.g c = some q → is_crossable r cfg.barriers c = true
  g_nonneg : ∀ c q, σ.g c = some q → 0 ≤ q
  g_start : σ.g start = some 0
  pred_start : σ.pred start = none
  pred_ok : ∀ v gv, σ.g v = some gv → v ≠ start →
    ∃ u gu, σ.pred v = some u ∧ σ.g u = some gu ∧
      Edge r cfg.barriers cfg.conn u v ∧ gu + cfg.w u v ≤ gv
  closed_relax : ∀ u ∈ σ.closed, ∀ v, Edge r cfg.barriers cfg.conn u v →
    ∃ gu gv, σ.g u = some gu ∧ σ.g v = some gv ∧ gv ≤ gu + cfg.w u v
  closed_min : ∀ u ∈ σ.closed, ∀ p,
    Connects r cfg.barriers cfg.conn start u p →
    ∃ gu, σ.g u = some gu ∧ gu ≤ pathCost cfg.w p
  goal_open : goal ∉ σ.closed

theorem inv_init [DecidableEq K] (r : Raster K) (cfg : Cfg K)
    (start goal : Cell)
    (hs : is_crossable r cfg.barriers start = true) :
    Inv r cfg start goal (initState r start) := by
  refine ⟨rfl, ?_, ?_, ?_, ?_, ?_, ?_, rfl, ?_, ?_, ?_, ?_⟩
  · simp [initState]
  · intro c
    simp only [initState, List.mem_singleton, Finset.not_mem_empty,
      not_false_iff, and_true]
    constructor
    · intro h
      subst h
      exact ⟨0, by rw [if_pos rfl]⟩
    · rintro ⟨q, hq⟩
      by_cases hc : c = start
      · exact hc
      · rw [if_neg hc] at hq
        exact absurd hq (by simp)
  · intro c hc
    exact absurd hc (Finset.not_mem_empty c)
  · intro c q hq
    show is_crossable r cfg.barriers c = true
    by_cases hc : c = start
    · rw [hc]; exact hs
    · simp only [initState] at hq
      rw [if_neg hc] at hq
      exact absurd hq (by simp)
  · intro c q hq
    simp only [initState] at hq
    by_cases hc : c = start
    · rw [if_pos hc] at hq
      injection hq with hq
      rw [← hq]
    · rw [if_neg hc] at hq
      exact absurd hq (by simp)
  · show (if start = start then some (0 : K) else none) = some 0
    rw [if_pos rfl]
  · intro v gv hg hne
    simp only [initState] at hg
    rw [if_neg hne] at hg
    exact absurd hg (by simp)
  · intro u hu
    exact absurd hu (Finset.not_mem_empty u)
  · intro u hu
    exact absurd hu (Finset.not_mem_empty u)
  · exact Finset.not_mem_empty goal

theorem path_reach [DecidableEq K] (r : Raster K) (cfg : Cfg K)
    (start goal : Cell) (σ : AState K)
    (hinv : Inv r cfg start goal σ) (hh : HCons r cfg goal) :
    ∀ (p : List Cell) (u : Cell),
      Connects r cfg.barriers cfg.conn start u p →
      (u ∈ σ.closed ∧ ∃ gu, σ.g u = some gu ∧ gu ≤ pathCost cfg.w p) ∨
      (∃ v gv, v ∈ σ.openL ∧ σ.g v = some gv ∧
        gv + cfg.hfn v goal ≤ pathCost cfg.w p + cfg.hfn u goal) := by
  intro p
  induction p using List.reverseRecOn with
  | nil => intro u hc; exact absurd hc.2.1 (by simp)
  | append_singleton p' v ih =>
      intro u hc
      obtain ⟨hp, hhead, hlast⟩ := hc
      rw [List.getLast?_concat] at hlast
      injection hlast with hlast
      subst hlast
      by_cases hp' : p' = []
      · subst hp'
        simp only [List.nil_append] at hp hhead ⊢
        simp only [List.head?_cons, Option.some.injEq] at hhead
        subst hhead
        by_cases hcl : v ∈ σ.closed
        · exact Or.inl ⟨hcl, hinv.closed_min v hcl [v] ⟨hp, rfl, rfl⟩⟩
        · refine Or.inr ⟨v, 0, ?_, hinv.g_start, ?_⟩
          · exact (hinv.mem_openL v).mpr ⟨⟨0, hinv.g_start⟩, hcl⟩
          · show (0 : K) + cfg.hfn v goal ≤ pathCost cfg.w [v] + cfg.hfn v goal
            simp [pathCost]
      · obtain ⟨hp'', hcv, u', hlast', hnb⟩ :=
          isPath_snoc_decomp r cfg.barriers cfg.conn p' v hp' hp
        have hcu' : is_crossable r cfg.barriers u' = true :=
          isPath_cross r cfg.barriers cfg.conn p' hp'' u'
            (mem_of_getLast_eq p' u' hlast')
        have hedge : Edge r cfg.barriers cfg.conn u' v := ⟨hcu', hcv, hnb⟩
        have hhead' : p'.head? = some start := by
          rwa [List.head?_append_of_ne_nil p' hp'] at hhead
        have hcost : pathCost cfg.w (p' ++ [v]) =
            pathCost cfg.w p' + cfg.w u' v := pathCost_snoc cfg.w p' u' v hlast'
        rcases ih u' ⟨hp'', hhead', hlast'⟩ with
          ⟨hcl, gu', hg, hle⟩ | ⟨x, gx, hx, hgx, hineq⟩
        · obtain ⟨gu'', gv, hgu'', hgv, hrel⟩ :=
            hinv.closed_relax u' hcl v hedge
          rw [hg] at hgu''
          injection hgu'' with hgu''
          subst hgu''
          have hgvle : gv ≤ pathCost cfg.w (p' ++ [v]) := by
            rw [hcost]; linarith
          by_cases hvcl : v ∈ σ.closed
          · exact Or.inl ⟨hvcl, gv, hgv, hgvle⟩
          · refine Or.inr ⟨v, gv, ?_, hgv, by linarith⟩
            exact (hinv.mem_openL v).mpr ⟨⟨gv, hgv⟩, hvcl⟩
        · refine Or.inr ⟨x, gx, hx, hgx, ?_⟩
          have h1 := hh u' v hedge
          rw [hcost]
          linarith

theorem pop_min_bound [DecidableEq K] (r : Raster K) (cfg : Cfg K)
    (start goal : Cell) (σ : AState K) (u : Cell)
    (hinv : Inv r cfg start goal σ) (hh : HCons r cfg goal)
    (hpop : argminStable (fEst cfg goal σ) σ.openL = some u) :
    ∀ p, Connects r cfg.barriers cfg.conn start u p →
      ∃ gu, σ.g u = some gu ∧ gu ≤ pathCost cfg.w p := by
  intro p hc
  have humem := argminStable_mem _ _ _ hpop
  have hm := (hinv.mem_openL u).mp humem
  obtain ⟨⟨gu, hgu⟩, hnotcl⟩ := hm
  rcases path_reach r cfg start goal σ hinv hh p u hc with
    ⟨hcl, _⟩ | ⟨v, gv, hv, hgv, hineq⟩
  · exact absurd hcl hnotcl
  · refine ⟨gu, hgu, ?_⟩
    have hmin := argminStable_min _ _ _ hpop v hv
    have hfu : fEst cfg goal σ u = gu + cfg.hfn u goal := by
      unfold fEst; rw [hgu]
    have hfv : fEst cfg goal σ v = gv + cfg.hfn v goal := by
      unfold fEst; rw [hgv]
    have hchain : gu + cfg.hfn u goal ≤
        pathCost cfg.w p + cfg.hfn u goal := by
      calc gu + cfg.hfn u goal = fEst cfg goal σ u := hfu.symm
        _ ≤ fEst cfg goal σ v := hmin
        _ = gv + cfg.hfn v goal := hfv
        _ ≤ pathCost cfg.w p + cfg.hfn u goal := hineq
    exact le_of_add_le_add_right hchain

theorem isPath_ne_nil [DecidableEq K] (r : Raster K) (bs : List K)
    (conn : Nat) (p : List Cell) (h : IsPath r bs conn p) : p ≠ [] := by
  intro hp
  subst hp
  exact h

/-! Reconstruction of the path from the predecessor map. -/

/-- Test used for the termination measure: the cell has a recorded cost
strictly below `q`. -/
def gBelow (g : Cell → Option K) (q : K) (c : Cell) : Bool :=
  match g c with
  | some gc => decide (gc < q)
  | none => false

/-- The number of valid cells whose recorded cost is strictly below `q`:
the measure that decreases along back-pointer chains. -/
def mAux [DecidableEq K] (r : Raster K) (bs : List K) (g : Cell → Option K)
    (q : K) : Nat :=
  ((validCells r bs).filter (fun c => gBelow g q c = true)).card

theorem mAux_lt [DecidableEq K] (r : Raster K) (bs : List K)
    (g : Cell → Option K) (u : Cell) (gu q : K)
    (hgu : g u = some gu) (hlt : gu < q)
    (hu : u ∈ validCells r bs) :
    mAux r bs g gu < mAux r bs g q := by
  apply Finset.card_lt_card
  rw [Finset.ssubset_def]
  constructor
  · intro c hc
    rw [Finset.mem_filter] at hc ⊢
    refine ⟨hc.1, ?_⟩
    have h2 := hc.2
    unfold gBelow at h2 ⊢
    cases hg : g c with
    | none => rw [hg] at h2; exact absurd h2 (by simp)
    | some gc =>
        rw [hg] at h2
        simp only [decide_eq_true_eq] at h2 ⊢
        exact lt_trans h2 hlt
  · intro hsub
    have humem : u ∈ (validCells r bs).filter (fun c => gBelow g q c = true) := by
      rw [Finset.mem_filter]
      refine ⟨hu, ?_⟩
      unfold gBelow
      rw [hgu]
      simp only [decide_eq_true_eq]
      exact hlt
    have := hsub humem
    rw [Finset.mem_filter] at this
    have h2 := this.2
    unfold gBelow at h2
    rw [hgu] at h2
    simp only [decide_eq_true_eq] at h2
    exact absurd h2 (lt_irrefl gu)

theorem mAux_le [DecidableEq K] (r : Raster K) (bs : List K)
    (g : Cell → Option K) (q : K) :
    mAux r bs g q ≤ r.height * r.width :=
  le_trans (Finset.card_le_card (Finset.filter_subset _ _)) (validCells_card r bs)

theorem reconstruct_mono :
    ∀ (n m : Nat) (pred : Cell → Option Cell) (c : Cell) (p : List Cell),
      n ≤ m → reconstruct pred n c = some p → reconstruct pred m c = some p := by
  intro n
  induction n with
  | zero => intro m pred c p _ h; exact absurd h (by simp [reconstruct])
  | succ n ih =>
      intro m pred c p hle h
      cases m with
      | zero => exact absurd hle (by omega)
      | succ m =>
          unfold reconstruct at h ⊢
          cases hp : pred c with
          | none => rw [hp] at h; exact h
          | some u =>
              rw [hp] at h
              dsimp only at h ⊢
              rcases Option.map_eq_some'.mp h with ⟨q, hq, hpq⟩
              rw [ih m pred u q (by omega) hq]
              rw [← hpq]
              rfl

theorem recon_exists [DecidableEq K] (r : Raster K) (cfg : Cfg K)
    (start : Cell) (g : Cell → Option K) (pred : Cell → Option Cell)
    (hw : WPos r cfg)
    (hgs : g start = some 0)
    (hps : pred start = none)
    (hcross : ∀ c q, g c = some q → is_crossable r cfg.barriers c = true)
    (hpred : ∀ v gv, g v = some gv → v ≠ start →
      ∃ u gu, pred v = some u ∧ g u = some gu ∧
        Edge r cfg.barriers cfg.conn u v ∧ gu + cfg.w u v ≤ gv) :
    ∀ (n : Nat) (v : Cell) (gv : K), g v = some gv →
      mAux r cfg.barriers g gv < n →
      ∃ p, reconstruct pred n v = some p ∧
        Connects r cfg.barriers cfg.conn start v p ∧ pathCost cfg.w p ≤ gv := by
  intro n
  induction n with
  | zero => intro v gv _ hm; exact absurd hm (by omega)
  | succ n ih =>
      intro v gv hgv hm
      by_cases hv : v = start
      · subst hv
        rw [hgs] at hgv
        injection hgv with hgv
        refine ⟨[v], ?_, ⟨?_, rfl, rfl⟩, ?_⟩
        · simp [reconstruct, hps]
        · show is_crossable r cfg.barriers v = true
          exact hcross v 0 hgs
        · show (0 : K) ≤ gv
          rw [← hgv]
      · obtain ⟨u, gu, hpv, hgu, hedge, hle⟩ := hpred v gv hgv hv
        have hwuv := hw u v hedge
        have hgul : gu < gv := by linarith
        have hm' : mAux r cfg.barriers g gu < mAux r cfg.barriers g gv :=
          mAux_lt r cfg.barriers g u gu gv hgu hgul
            ((mem_validCells r cfg.barriers u).mpr hedge.1)
        have hmn : mAux r cfg.barriers g gu < n := by omega
        obtain ⟨p', hrec, hconn, hcost⟩ := ih u gu hgu hmn
        obtain ⟨hip, hhd, hlst⟩ := hconn
        have hne := isPath_ne_nil r cfg.barriers cfg.conn p' hip
        refine ⟨p' ++ [v], ?_, ⟨?_, ?_, ?_⟩, ?_⟩
        · unfold reconstruct
          rw [hpv]
          dsimp only
          rw [hrec]
          rfl
        · exact isPath_snoc r cfg.barriers cfg.conn p' u v hip hlst
            hedge.2.1 hedge.2.2
        · rwa [List.head?_append_of_ne_nil p' hne]
        · exact List.getLast?_concat p'
        · rw [pathCost_snoc cfg.w p' u v hlst]
          linarith

/-- The invariant holding while the selected cell `u` is being expanded:
all the clauses of `Inv` except that `u`, freshly closed, is only known to
be relaxed towards the neighbors already processed (`done`). -/
structure Mid [DecidableEq K] (r : Raster K) (cfg : Cfg K)
    (start goal u : Cell) (done : List Cell) (σ : AState K) : Prop where
  rEq : σ.raster = r
  nodup : σ.openL.Nodup
  mem_openL : ∀ c, c ∈ σ.openL ↔ ((∃ q, σ.g c = some q) ∧ c ∉ σ.closed)
  closed_disc : ∀ c ∈ σ.closed, ∃ q, σ.g c = some q
  disc_cross : ∀ c q, σ.g c = some q → is_crossable r cfg.barriers c = true
  g_nonneg : ∀ c q, σ.g c = some q → 0 ≤ q
  g_start : σ.g start = some 0
  pred_start : σ.pred start = none
  pred_ok : ∀ v gv, σ.g v = some gv → v ≠ start →
    ∃ u' gu, σ.pred v = some u' ∧ σ.g u' = some gu ∧
      Edge r cfg.barriers cfg.conn u' v ∧ gu + cfg.w u' v ≤ gv
  relax_guard : ∀ x ∈ σ.closed, ∀ v, Edge r cfg.barriers cfg.conn x v →
    (x = u → v ∈ done) →
    ∃ gx gv, σ.g x = some gx ∧ σ.g v = some gv ∧ gv ≤ gx + cfg.w x v
  closed_min : ∀ x ∈ σ.closed, ∀ p,
    Connects r cfg.barriers cfg.conn start x p →
    ∃ gx, σ.g x = some gx ∧ gx ≤ pathCost cfg.w p
  goal_open : goal ∉ σ.closed
  u_closed : u ∈ σ.closed

theorem mid_to_inv [DecidableEq K] (r : Raster K) (cfg : Cfg K)
    (start goal u : Cell) (σ : AState K)
    (hm : Mid r cfg start goal u (neighbors r cfg.conn u) σ) :
    Inv r cfg start goal σ := by
  refine ⟨hm.rEq, hm.nodup, hm.mem_openL, hm.closed_disc, hm.disc_cross,
    hm.g_nonneg, hm.g_start, hm.pred_start, hm.pred_ok, ?_, hm.closed_min,
    hm.goal_open⟩
  intro x hx v hedge
  refine hm.relax_guard x hx v hedge ?_
  intro hxu
  subst hxu
  exact hedge.2.2

theorem mid_after_close [DecidableEq K] (r : Raster K) (cfg : Cfg K)
    (start goal u : Cell) (σ : AState K)
    (hinv : Inv r cfg start goal σ) (hh : HCons r cfg goal)
    (hpop : argminStable (fEst cfg goal σ) σ.openL = some u)
    (hne : u ≠ goal) :
    Mid r cfg start goal u []
      { σ with openL := σ.openL.erase u, closed := insert u σ.closed } := by
  have humem := argminStable_mem _ _ _ hpop
  have hdisc := ((hinv.mem_openL u).mp humem).1
  refine ⟨hinv.rEq, hinv.nodup.erase u, ?_, ?_, hinv.disc_cross,
    hinv.g_nonneg, hinv.g_start, hinv.pred_start, hinv.pred_ok, ?_, ?_, ?_,
    Finset.mem_insert_self u σ.closed⟩
  · intro c
    show c ∈ σ.openL.erase u ↔ _ ∧ c ∉ insert u σ.closed
    rw [hinv.nodup.mem_erase_iff, Finset.mem_insert, hinv.mem_openL c]
    constructor
    · rintro ⟨hcu, hdc, hccl⟩
      exact ⟨hdc, by tauto⟩
    · rintro ⟨hdc, hni⟩
      exact ⟨fun hc => hni (Or.inl hc), hdc, fun hc => hni (Or.inr hc)⟩
  · intro c hc
    rcases Finset.mem_insert.mp hc with hcu | hccl
    · subst hcu; exact hdisc
    · exact hinv.closed_disc c hccl
  · intro x hx v hedge hguard
    rcases Finset.mem_insert.mp hx with hxu | hxcl
    · exact absurd (hguard hxu) (by simp)
    · exact hinv.closed_relax x hxcl v hedge
  · intro x hx p hconn
    rcases Finset.mem_insert.mp hx with hxu | hxcl
    · subst hxu
      exact pop_min_bound r cfg start goal σ x hinv hh hpop p hconn
    · exact hinv.closed_min x hxcl p hconn
  · intro hg
    rcases Finset.mem_insert.mp hg with hgu | hgcl
    · exact hne hgu.symm
    · exact hinv.goal_open hgcl

theorem relaxed_via_min [DecidableEq K] (r : Raster K) (cfg : Cfg K)
    (start goal u : Cell) (done : List Cell) (σ : AState K)
    (hw : WPos r cfg) (hm : Mid r cfg start goal u done σ)
    (v : Cell) (hvc : v ∈ σ.closed)
    (hedge : Edge r cfg.barriers cfg.conn u v) :
    ∃ gu gv, σ.g u = some gu ∧ σ.g v = some gv ∧ gv ≤ gu + cfg.w u v := by
  obtain ⟨gu, hgu⟩ := hm.closed_disc u hm.u_closed
  obtain ⟨p, _, hconn, hcost⟩ := recon_exists r cfg start σ.g σ.pred hw
    hm.g_start hm.pred_start hm.disc_cross hm.pred_ok
    (mAux r cfg.barriers σ.g gu + 1) u gu hgu (by omega)
  obtain ⟨hip, hhd, hlst⟩ := hconn
  have hne := isPath_ne_nil r cfg.barriers cfg.conn p hip
  have hconn2 : Connects r cfg.barriers cfg.conn start v (p ++ [v]) := by
    refine ⟨isPath_snoc r cfg.barriers cfg.conn p u v hip hlst
      hedge.2.1 hedge.2.2, ?_, List.getLast?_concat p⟩
    rwa [List.head?_append_of_ne_nil p hne]
  obtain ⟨gv, hgv, hmin⟩ := hm.closed_min v hvc (p ++ [v]) hconn2
  refine ⟨gu, gv, hgu, hgv, ?_⟩
  rw [pathCost_snoc cfg.w p u v hlst] at hmin
  linarith

/-- Extending `done` without touching the state only requires the new
neighbor to be already relaxed (when it forms an edge from `u`). -/
theorem mid_done_snoc [DecidableEq K] (r : Raster K) (cfg : Cfg K)
    (start goal u : Cell) (done : List Cell) (σ : AState K)
    (hm : Mid r cfg start goal u done σ) (v : Cell)
    (hnew : Edge r cfg.barriers cfg.conn u v →
      ∃ gu gv, σ.g u = some gu ∧ σ.g v = some gv ∧ gv ≤ gu + cfg.w u v) :
    Mid r cfg start goal u (done ++ [v]) σ := by
  refine ⟨hm.rEq, hm.nodup, hm.mem_openL, hm.closed_disc, hm.disc_cross,
    hm.g_nonneg, hm.g_start, hm.pred_start, hm.pred_ok, ?_, hm.closed_min,
    hm.goal_open, hm.u_closed⟩
  intro x hx v' hedge hguard
  by_cases hxu : x = u
  · subst hxu
    by_cases hv' : v' = v
    · subst hv'
      exact hnew hedge
    · refine hm.relax_guard x hx v' hedge ?_
      intro _
      rcases List.mem_append.mp (hguard rfl) with hd | hs
      · exact hd
      · simp only [List.mem_singleton] at hs
        exact absurd hs hv'
  · exact hm.relax_guard x hx v' hedge (fun hc => absurd hc hxu)

theorem mid_relax_fresh [DecidableEq K] (r : Raster K) (cfg : Cfg K)
    (start goal u : Cell) (done : List Cell) (σ : AState K)
    (hw : WPos r cfg) (hm : Mid r cfg start goal u done σ)
    (v : Cell) (hv : v ∈ neighbors r cfg.conn u)
    (hcr : is_crossable r cfg.barriers v = true) (hvc : v ∉ σ.closed)
    (gu : K) (hgu : σ.g u = some gu) (hgv : σ.g v = none) :
    Mid r cfg start goal u (done ++ [v])
      { σ with openL := σ.openL ++ [v],
               g := fun c => if c = v then some (gu + cfg.w u v) else σ.g c,
               pred := fun c => if c = v then some u else σ.pred c } := by
  have hedge : Edge r cfg.barriers cfg.conn u v :=
    ⟨hm.disc_cross u gu hgu, hcr, hv⟩
  have hw0 : 0 < cfg.w u v := hw u v hedge
  have hgu0 : 0 ≤ gu := hm.g_nonneg u gu hgu
  have huv : u ≠ v := fun h => hvc (h ▸ hm.u_closed)
  have hvstart : v ≠ start := by
    intro h
    rw [h, hm.g_start] at hgv
    exact Option.noConfusion hgv
  have hvopen : v ∉ σ.openL := by
    intro h
    obtain ⟨⟨q, hq⟩, _⟩ := (hm.mem_openL v).mp h
    rw [hgv] at hq
    exact Option.noConfusion hq
  refine ⟨hm.rEq, ?_, ?_, ?_, ?_, ?_, ?_, ?_, ?_, ?_, ?_, hm.goal_open,
    hm.u_closed⟩
  · exact ((List.perm_append_singleton v σ.openL).nodup_iff).mpr
      (List.nodup_cons.mpr ⟨hvopen, hm.nodup⟩)
  · intro c
    dsimp only
    by_cases hc : c = v
    · subst hc
      rw [if_pos rfl]
      constructor
      · intro _
        exact ⟨⟨gu + cfg.w u c, rfl⟩, hvc⟩
      · intro _
        exact List.mem_append_right _ (List.mem_singleton_self c)
    · rw [if_neg hc]
      constructor
      · intro hcm
        rcases List.mem_append.mp hcm with h1 | h2
        · exact (hm.mem_openL c).mp h1
        · simp only [List.mem_singleton] at h2
          exact absurd h2 hc
      · intro hcd
        exact List.mem_append_left _ ((hm.mem_openL c).mpr hcd)
  · intro c hc
    dsimp only at hc ⊢
    have hcv : c ≠ v := fun h => hvc (h ▸ hc)
    obtain ⟨q, hq⟩ := hm.closed_disc c hc
    rw [if_neg hcv]
    exact ⟨q, hq⟩
  · intro c q hq
    dsimp only at hq
    by_cases hc : c = v
    · subst hc; exact hcr
    · rw [if_neg hc] at hq
      exact hm.disc_cross c q hq
  · intro c q hq
    dsimp only at hq
    by_cases hc : c = v
    · rw [if_pos hc] at hq
      injection hq with hq
      rw [← hq]
      linarith
    · rw [if_neg hc] at hq
      exact hm.g_nonneg c q hq
  · dsimp only
    rw [if_neg (fun h => hvstart h.symm)]
    exact hm.g_start
  · dsimp only
    rw [if_neg (fun h => hvstart h.symm)]
    exact hm.pred_start
  · intro v' gv' hq hne'
    dsimp only at hq ⊢
    by_cases hc : v' = v
    · subst hc
      rw [if_pos rfl] at hq
      injection hq with hq
      refine ⟨u, gu, ?_, ?_, hedge, ?_⟩
      · rw [if_pos rfl]
      · rw [if_neg huv]
        exact hgu
      · rw [← hq]
    · rw [if_neg hc] at hq
      obtain ⟨u', gu', hp', hg', hedge', hineq'⟩ := hm.pred_ok v' gv' hq hne'
      have hu'v : u' ≠ v := by
        intro h
        rw [h, hgv] at hg'
        exact Option.noConfusion hg'
      refine ⟨u', gu', ?_, ?_, hedge', hineq'⟩
      · rw [if_neg hc]
        exact hp'
      · rw [if_neg hu'v]
        exact hg'
  · intro x hx v'' hedge'' hguard
    dsimp only at hx ⊢
    have hxv : x ≠ v := fun h => hvc (h ▸ hx)
    by_cases hv2 : v'' = v
    · subst hv2
      by_cases hxu : x = u
      · subst hxu
        refine ⟨gu, gu + cfg.w x v'', ?_, ?_, le_refl _⟩
        · rw [if_neg hxv]
          exact hgu
        · rw [if_pos rfl]
      · obtain ⟨gx, gvv, _, hgvv, _⟩ :=
          hm.relax_guard x hx v'' hedge'' (fun hc => absurd hc hxu)
        rw [hgv] at hgvv
        exact absurd hgvv (by simp)
    · have hguard' : x = u → v'' ∈ done := by
        intro hxu
        rcases List.mem_append.mp (hguard hxu) with hd | hs
        · exact hd
        · simp only [List.mem_singleton] at hs
          exact absurd hs hv2
      obtain ⟨gx, gv'', hgx, hgv'', hrel⟩ :=
        hm.relax_guard x hx v'' hedge'' hguard'
      refine ⟨gx, gv'', ?_, ?_, hrel⟩
      · rw [if_neg hxv]
        exact hgx
      · rw [if_neg hv2]
        exact hgv''
  · intro x hx p hconn
    dsimp only at hx ⊢
    have hxv : x ≠ v := fun h => hvc (h ▸ hx)
    obtain ⟨gx, hgx, hle⟩ := hm.closed_min x hx p hconn
    rw [if_neg hxv]
    exact ⟨gx, hgx, hle⟩

theorem mid_relax_improve [DecidableEq K] (r : Raster K) (cfg : Cfg K)
    (start goal u : Cell) (done : List Cell) (σ : AState K)
    (hw : WPos r cfg) (hm : Mid r cfg start goal u done σ)
    (v : Cell) (hv : v ∈ neighbors r cfg.conn u)
    (hcr : is_crossable r cfg.barriers v = true) (hvc : v ∉ σ.closed)
    (gu gv : K) (hgu : σ.g u = some gu) (hgvs : σ.g v = some gv)
    (himp : gu + cfg.w u v < gv) :
    Mid r cfg start goal u (done ++ [v])
      { σ with g := fun c => if c = v then some (gu + cfg.w u v) else σ.g c,
               pred := fun c => if c = v then some u else σ.pred c } := by
  have hedge : Edge r cfg.barriers cfg.conn u v :=
    ⟨hm.disc_cross u gu hgu, hcr, hv⟩
  have hw0 : 0 < cfg.w u v := hw u v hedge
  have hgu0 : 0 ≤ gu := hm.g_nonneg u gu hgu
  have huv : u ≠ v := fun h => hvc (h ▸ hm.u_closed)
  have hvstart : v ≠ start := by
    intro h
    rw [h, hm.g_start] at hgvs
    injection hgvs with hgvs
    rw [← hgvs] at himp
    linarith
  refine ⟨hm.rEq, hm.nodup, ?_, ?_, ?_, ?_, ?_, ?_, ?_, ?_, ?_,
    hm.goal_open, hm.u_closed⟩
  · intro c
    dsimp only
    by_cases hc : c = v
    · subst hc
      rw [if_pos rfl]
      constructor
      · intro hcm
        exact ⟨⟨gu + cfg.w u c, rfl⟩, ((hm.mem_openL c).mp hcm).2⟩
      · rintro ⟨_, hncl⟩
        exact (hm.mem_openL c).mpr ⟨⟨gv, hgvs⟩, hncl⟩
    · rw [if_neg hc]
      exact hm.mem_openL c
  · intro c hc
    dsimp only at hc ⊢
    have hcv : c ≠ v := fun h => hvc (h ▸ hc)
    obtain ⟨q, hq⟩ := hm.closed_disc c hc
    rw [if_neg hcv]
    exact ⟨q, hq⟩
  · intro c q hq
    dsimp only at hq
    by_cases hc : c = v
    · subst hc; exact hcr
    · rw [if_neg hc] at hq
      exact hm.disc_cross c q hq
  · intro c q hq
    dsimp only at hq
    by_cases hc : c = v
    · rw [if_pos hc] at hq
      injection hq with hq
      rw [← hq]
      linarith
    · rw [if_neg hc] at hq
      exact hm.g_nonneg c q hq
  · dsimp only
    rw [if_neg (fun h => hvstart h.symm)]
    exact hm.g_start
  · dsimp only
    rw [if_neg (fun h => hvstart h.symm)]
    exact hm.pred_start
  · intro v' gv' hq hne'
    dsimp only at hq ⊢
    by_cases hc : v' = v
    · subst hc
      rw [if_pos rfl] at hq
      injection hq with hq
      refine ⟨u, gu, ?_, ?_, hedge, ?_⟩
      · rw [if_pos rfl]
      · rw [if_neg huv]
        exact hgu
      · rw [← hq]
    · rw [if_neg hc] at hq
      obtain ⟨u', gu', hp', hg', hedge', hineq'⟩ := hm.pred_ok v' gv' hq hne'
      by_cases hu'v : u' = v
      · subst hu'v
        rw [hgvs] at hg'
        injection hg' with hg'
        refine ⟨u', gu + cfg.w u u', ?_, ?_, hedge', ?_⟩
        · rw [if_neg hc]
          exact hp'
        · rw [if_pos rfl]
        · rw [← hg'] at hineq'
          linarith
      · refine ⟨u', gu', ?_, ?_, hedge', hineq'⟩
        · rw [if_neg hc]
          exact hp'
        · rw [if_neg hu'v]
          exact hg'
  · intro x hx v'' hedge'' hguard
    dsimp only at hx ⊢
    have hxv : x ≠ v := fun h => hvc (h ▸ hx)
    by_cases hv2 : v'' = v
    · subst hv2
      by_cases hxu : x = u
      · subst hxu
        refine ⟨gu, gu + cfg.w x v'', ?_, ?_, le_refl _⟩
        · rw [if_neg hxv]
          exact hgu
        · rw [if_pos rfl]
      · obtain ⟨gx, gvv, hgx, hgvv, hrel⟩ :=
          hm.relax_guard x hx v'' hedge'' (fun hc => absurd hc hxu)
        rw [hgvs] at hgvv
        injection hgvv with hgvv
        refine ⟨gx, gu + cfg.w u v'', ?_, ?_, ?_⟩
        · rw [if_neg hxv]
          exact hgx
        · rw [if_pos rfl]
        · rw [← hgvv] at hrel
          linarith
    · have hguard' : x = u → v'' ∈ done := by
        intro hxu
        rcases List.mem_append.mp (hguard hxu) with hd | hs
        · exact hd
        · simp only [List.mem_singleton] at hs
          exact absurd hs hv2
      obtain ⟨gx, gv'', hgx, hgv'', hrel⟩ :=
        hm.relax_guard x hx v'' hedge'' hguard'
      refine ⟨gx, gv'', ?_, ?_, hrel⟩
      · rw [if_neg hxv]
        exact hgx
      · rw [if_neg hv2]
        exact hgv''
  · intro x hx p hconn
    dsimp only at hx ⊢
    have hxv : x ≠ v := fun h => hvc (h ▸ hx)
    obtain ⟨gx, hgx, hle⟩ := hm.closed_min x hx p hconn
    rw [if_neg hxv]
    exact ⟨gx, hgx, hle⟩

theorem mid_relax [DecidableEq K] (r : Raster K) (cfg : Cfg K)
    (start goal u : Cell) (done : List Cell) (σ : AState K)
    (hw : WPos r cfg) (hm : Mid r cfg start goal u done σ)
    (v : Cell) (hv : v ∈ neighbors r cfg.conn u) :
    Mid r cfg start goal u (done ++ [v]) (relax cfg u σ v) := by
  unfold relax
  by_cases hvc : v ∈ σ.closed
  · rw [if_pos hvc]
    exact mid_done_snoc r cfg start goal u done σ hm v
      (fun hedge => relaxed_via_min r cfg start goal u done σ hw hm v hvc hedge)
  · rw [if_neg hvc]
    by_cases hcr2 : is_crossable σ.raster cfg.barriers v = true
    · have hcr : is_crossable r cfg.barriers v = true := by
        rw [← hm.rEq]
        exact hcr2
      rw [if_pos hcr2]
      obtain ⟨gu, hgu⟩ := hm.closed_disc u hm.u_closed
      rw [hgu]
      dsimp only
      cases hgv : σ.g v with
      | none =>
          exact mid_relax_fresh r cfg start goal u done σ hw hm v hv hcr hvc
            gu hgu hgv
      | some gv =>
          dsimp only
          by_cases himp : gu + cfg.w u v < gv
          · rw [if_pos himp]
            exact mid_relax_improve r cfg start goal u done σ hw hm v hv hcr
              hvc gu gv hgu hgv himp
          · rw [if_neg himp]
            exact mid_done_snoc r cfg start goal u done σ hm v
              (fun _ => ⟨gu, gv, hgu, hgv, not_lt.mp himp⟩)
    · rw [if_neg hcr2]
      exact mid_done_snoc r cfg start goal u done σ hm v
        (fun hedge => absurd (by rw [← hm.rEq] at hedge; exact hedge.2.1) hcr2)

theorem mid_fold [DecidableEq K] (r : Raster K) (cfg : Cfg K)
    (start goal u : Cell) (hw : WPos r cfg) :
    ∀ (todo done : List Cell) (σ : AState K),
      (∀ v ∈ todo, v ∈ neighbors r cfg.conn u) →
      Mid r cfg start goal u done σ →
      Mid r cfg start goal u (done ++ todo)
        (todo.foldl (relax cfg u) σ) := by
  intro todo
  induction todo with
  | nil =>
      intro done σ _ hm
      rw [List.append_nil]
      exact hm
  | cons a t ih =>
      intro done σ hn hm
      have h1 := mid_relax r cfg start goal u done σ hw hm a
        (hn a (List.mem_cons_self a t))
      have h2 := ih (done ++ [a]) (relax cfg u σ a)
        (fun v hv => hn v (List.mem_cons_of_mem a hv)) h1
      rw [List.append_assoc] at h2
      exact h2

theorem step_inv [DecidableEq K] (r : Raster K) (cfg : Cfg K)
    (start goal : Cell) (σ : AState K) (u : Cell)
    (hw : WPos r cfg) (hh : HCons r cfg goal)
    (hinv : Inv r cfg start goal σ)
    (hpop : argminStable (fEst cfg goal σ) σ.openL = some u)
    (hne : u ≠ goal) :
    Inv r cfg start goal
      (expand cfg u
        { σ with openL := σ.openL.erase u, closed := insert u σ.closed }) := by
  have hmid0 := mid_after_close r cfg start goal u σ hinv hh hpop hne
  have hmid := mid_fold r cfg start goal u hw (neighbors r cfg.conn u) []
    _ (fun v hv => hv) hmid0
  apply mid_to_inv r cfg start goal u
  unfold expand
  have hnb : neighbors ({ σ with openL := σ.openL.erase u, closed := insert u σ.closed } : AState K).raster cfg.conn u = neighbors r cfg.conn u := by
    show neighbors σ.raster cfg.conn u = neighbors r cfg.conn u
    rw [hinv.rEq]
  rw [hnb]
  exact hmid

theorem relax_closed [DecidableEq K] (cfg : Cfg K) (u : Cell) (σ : AState K)
    (v : Cell) : (relax cfg u σ v).closed = σ.closed := by
  unfold relax
  repeat' first | rfl | split | dsimp only

theorem foldl_relax_closed [DecidableEq K] (cfg : Cfg K) (u : Cell) :
    ∀ (l : List Cell) (σ : AState K),
      (l.foldl (relax cfg u) σ).closed = σ.closed := by
  intro l
  induction l with
  | nil => intro σ; rfl
  | cons a t ih =>
      intro σ
      simp only [List.foldl_cons]
      rw [ih, relax_closed]

theorem expand_closed [DecidableEq K] (cfg : Cfg K) (u : Cell)
    (σ : AState K) : (expand cfg u σ).closed = σ.closed :=
  foldl_relax_closed cfg u _ σ

/-! The main loop lemmas: soundness and optimality of a successful result,
refutation of connectivity on failure, and sufficiency of the fuel. -/

theorem aLoop_ok [DecidableEq K] (r : Raster K) (cfg : Cfg K)
    (start goal : Cell) (hw : WPos r cfg) (hh : HCons r cfg goal) :
    ∀ (n : Nat) (σ : AState K) (p : List Cell),
      Inv r cfg start goal σ →
      (aLoop cfg goal n σ).1 = Except.ok p →
      Connects r cfg.barriers cfg.conn start goal p ∧
        ∀ q, Connects r cfg.barriers cfg.conn start goal q →
          pathCost cfg.w p ≤ pathCost cfg.w q := by
  intro n
  induction n with
  | zero => intro σ p _ h; exact absurd h (by simp [aLoop])
  | succ n ih =>
      intro σ p hinv h
      rw [aLoop] at h
      cases harg : argminStable (fEst cfg goal σ) σ.openL with
      | none =>
          rw [harg] at h
          exact absurd h (by simp)
      | some u =>
          rw [harg] at h
          dsimp only at h
          by_cases hu : u = goal
          · rw [if_pos hu] at h
            cases hrec : reconstruct σ.pred
                (σ.raster.height * σ.raster.width + 1) u with
            | none =>
                rw [hrec] at h
                exact absurd h (by simp)
            | some p' =>
                rw [hrec] at h
                simp only [Except.ok.injEq] at h
                subst h
                have humem := argminStable_mem _ _ _ harg
                obtain ⟨⟨gu, hgu⟩, _⟩ := (hinv.mem_openL u).mp humem
                rw [hinv.rEq] at hrec
                have hfuel : mAux r cfg.barriers σ.g gu <
                    r.height * r.width + 1 := by
                  have := mAux_le r cfg.barriers σ.g gu
                  omega
                obtain ⟨p'', hrec'', hconn, hcost⟩ := recon_exists r cfg start
                  σ.g σ.pred hw hinv.g_start hinv.pred_start hinv.disc_cross
                  hinv.pred_ok (r.height * r.width + 1) u gu hgu hfuel
                rw [hrec] at hrec''
                injection hrec'' with hrec''
                subst hrec''
                rw [hu] at hconn
                refine ⟨hconn, ?_⟩
                intro q hq
                obtain ⟨gu', hgu', hle⟩ := pop_min_bound r cfg start goal σ u
                  hinv hh harg q (by rw [hu]; exact hq)
                rw [hgu] at hgu'
                injection hgu' with hgu'
                subst hgu'
                linarith
          · rw [if_neg hu] at h
            exact ih _ p (step_inv r cfg start goal σ u hw hh hinv harg hu) h

theorem aLoop_noPath [DecidableEq K] (r : Raster K) (cfg : Cfg K)
    (start goal : Cell) (hw : WPos r cfg) (hh : HCons r cfg goal) :
    ∀ (n : Nat) (σ : AState K),
      Inv r cfg start goal σ →
      (aLoop cfg goal n σ).1 = Except.error Err.noPathFound →
      ¬∃ q, Connects r cfg.barriers cfg.conn start goal q := by
  intro n
  induction n with
  | zero => intro σ _ h; exact absurd h (by simp [aLoop])
  | succ n ih =>
      intro σ hinv h
      rw [aLoop] at h
      cases harg : argminStable (fEst cfg goal σ) σ.openL with
      | none =>
          rintro ⟨q, hq⟩
          rcases path_reach r cfg start goal σ hinv hh q goal hq with
            ⟨hcl, _⟩ | ⟨v, gv, hv, _, _⟩
          · exact hinv.goal_open hcl
          · rw [(argminStable_eq_none (fEst cfg goal σ) σ.openL).mp harg] at hv
            exact absurd hv (by simp)
      | some u =>
          rw [harg] at h
          dsimp only at h
          by_cases hu : u = goal
          · rw [if_pos hu] at h
            cases hrec : reconstruct σ.pred
                (σ.raster.height * σ.raster.width + 1) u with
            | none =>
                rw [hrec] at h
                exact absurd h (by simp)
            | some p' =>
                rw [hrec] at h
                exact absurd h (by simp)
          · rw [if_neg hu] at h
            exact ih _ (step_inv r cfg start goal σ u hw hh hinv harg hu) h

theorem aLoop_fuel [DecidableEq K] (r : Raster K) (cfg : Cfg K)
    (start goal : Cell) (hw : WPos r cfg) (hh : HCons r cfg goal) :
    ∀ (n : Nat) (σ : AState K),
      Inv r cfg start goal σ →
      (validCells r cfg.barriers \ σ.closed).card < n →
      (aLoop cfg goal n σ).1 ≠ Except.error Err.fuelExhausted := by
  intro n
  induction n with
  | zero => intro σ _ hc; exact absurd hc (by omega)
  | succ n ih =>
      intro σ hinv hc
      rw [aLoop]
      cases harg : argminStable (fEst cfg goal σ) σ.openL with
      | none => simp
      | some u =>
          dsimp only
          have humem := argminStable_mem _ _ _ harg
          obtain ⟨⟨gu, hgu⟩, hncl⟩ := (hinv.mem_openL u).mp humem
          by_cases hu : u = goal
          · rw [if_pos hu]
            have hfuel : mAux r cfg.barriers σ.g gu <
                r.height * r.width + 1 := by
              have := mAux_le r cfg.barriers σ.g gu
              omega
            obtain ⟨p'', hrec'', _, _⟩ := recon_exists r cfg start
              σ.g σ.pred hw hinv.g_start hinv.pred_start hinv.disc_cross
              hinv.pred_ok (r.height * r.width + 1) u gu hgu hfuel
            rw [← hinv.rEq] at hrec''
            rw [hrec'']
            simp
          · rw [if_neg hu]
            apply ih _ (step_inv r cfg start goal σ u hw hh hinv harg hu)
            rw [expand_closed]
            show ((validCells r cfg.barriers) \ insert u σ.closed).card < n
            have huv : u ∈ validCells r cfg.barriers \ σ.closed := by
              rw [Finset.mem_sdiff]
              exact ⟨(mem_validCells r cfg.barriers u).mpr
                (hinv.disc_cross u gu hgu), hncl⟩
            rw [Finset.sdiff_insert, Finset.card_erase_of_mem huv]
            have hpos : 0 < (validCells r cfg.barriers \ σ.closed).card :=
              Finset.card_pos.mpr ⟨u, huv⟩
            omega

theorem aLoop_cases [DecidableEq K] (cfg : Cfg K) (goal : Cell) :
    ∀ (n : Nat) (σ : AState K),
      (∃ p, (aLoop cfg goal n σ).1 = Except.ok p) ∨
      (aLoop cfg goal n σ).1 = Except.error Err.noPathFound ∨
      (aLoop cfg goal n σ).1 = Except.error Err.fuelExhausted := by
  intro n
  induction n with
  | zero => intro σ; right; right; rfl
  | succ n ih =>
      intro σ
      rw [aLoop]
      cases harg : argminStable (fEst cfg goal σ) σ.openL with
      | none => right; left; rfl
      | some u =>
          dsimp only
          by_cases hu : u = goal
          · rw [if_pos hu]
            cases hrec : reconstruct σ.pred
                (σ.raster.height * σ.raster.width + 1) u with
            | none => right; right; rfl
            | some p => left; exact ⟨p, rfl⟩
          · rw [if_neg hu]
            exact ih _

/-! Engine-level theorems and the remaining claims. -/

/-- Claim C1: for every raster and every pair of crossable, connected start
and goal cells, the search succeeds and returns a path whose total cost is
less than or equal to the total cost of every valid connecting sequence,
assuming the spec's conditions on the cost model (positive edge costs) and
the heuristic (consistency, §4.5). -/
theorem search_optimal [DecidableEq K] (r : Raster K) (cfg : Cfg K)
    (start goal : Cell)
    (hw : WPos r cfg) (hh : HCons r cfg goal)
    (hs : is_crossable r cfg.barriers start = true)
    (hex : ∃ p, Connects r cfg.barriers cfg.conn start goal p) :
    ∃ p, search r cfg start goal = Except.ok p ∧
      Connects r cfg.barriers cfg.conn start goal p ∧
      ∀ q, Connects r cfg.barriers cfg.conn start goal q →
        pathCost cfg.w p ≤ pathCost cfg.w q := by
  have hinv := inv_init r cfg start goal hs
  have hcard : (validCells r cfg.barriers \
      (initState r start).closed).card < r.height * r.width + 1 := by
    show ((validCells r cfg.barriers) \ ∅).card < _
    rw [Finset.sdiff_empty]
    have := validCells_card r cfg.barriers
    omega
  rcases aLoop_cases cfg goal (r.height * r.width + 1) (initState r start)
    with ⟨p, hok⟩ | hnp | hfe
  · have h := aLoop_ok r cfg start goal hw hh _ _ p hinv hok
    exact ⟨p, hok, h.1, h.2⟩
  · exact absurd hex (aLoop_noPath r cfg start goal hw hh _ _ hinv hnp)
  · exact absurd hfe (aLoop_fuel r cfg start goal hw hh _ _ hinv hcard)

/-- A 1×2 integer raster with both cells crossable. -/
def sample12 : Raster ℤ :=
  { height := 1, width := 2, ys := [0], xs := [0, 1],
    values := [1, 1], nodata := -1, dtype := "int" }

/-- Unit edge costs over the integers. -/
def intOne : Cell → Cell → ℤ := fun _ _ => 1

/-- The zero heuristic over the integers (trivially consistent). -/
def intZero : Cell → Cell → ℤ := fun _ _ => 0

/-- The engine configuration used by the concrete runs. -/
def cfgU : Cfg ℤ := ⟨[0], 4, intOne, intZero⟩

theorem search_optimal_witness :
    ∃ p, search sample12 cfgU (0, 0) (0, 1) = Except.ok p ∧
      Connects sample12 cfgU.barriers cfgU.conn (0, 0) (0, 1) p ∧
      ∀ q, Connects sample12 cfgU.barriers cfgU.conn (0, 0) (0, 1) q →
        pathCost cfgU.w p ≤ pathCost cfgU.w q :=
  search_optimal sample12 cfgU (0, 0) (0, 1)
    (fun _ _ _ => by show (0 : ℤ) < 1; norm_num)
    (fun _ _ _ => by show (0 : ℤ) ≤ 1 + 0; norm_num) (by decide)
    ⟨[(0, 0), (0, 1)], by decide⟩

theorem exists_of_findSome {α β : Type} (f : α → Option β) :
    ∀ (l : List α) (b : β), l.findSome? f = some b →
      ∃ a ∈ l, f a = some b := by
  intro l
  induction l with
  | nil => intro b h; exact absurd h (by simp)
  | cons a t ih =>
      intro b h
      rw [List.findSome?_cons] at h
      cases hfa : f a with
      | some b' =>
          rw [hfa] at h
          injection h with h
          exact ⟨a, List.mem_cons_self a t, by rw [hfa, h]⟩
      | none =>
          rw [hfa] at h
          obtain ⟨x, hx, hfx⟩ := ih b h
          exact ⟨x, List.mem_cons_of_mem a hx, hfx⟩

theorem snap_crossable [DecidableEq K] (r : Raster K) (bs : List K)
    (c c' : Cell) (h : snap r bs c = some c') :
    is_crossable r bs c' = true := by
  unfold snap at h
  by_cases hc : is_crossable r bs c = true
  · rw [if_pos hc] at h
    injection h with h
    rw [← h]
    exact hc
  · rw [if_neg hc] at h
    obtain ⟨rad, _, hrad⟩ := exists_of_findSome _ _ _ h
    obtain ⟨d, _, hd⟩ := exists_of_findSome _ _ _ hrad
    cases hsc : shiftCell r c d with
    | none => rw [hsc] at hd; exact absurd hd (by simp)
    | some c'' =>
        rw [hsc] at hd
        dsimp only at hd
        by_cases hcr : is_crossable r bs c'' = true
        · rw [if_pos hcr] at hd
          injection hd with hd
          rw [← hd]
          exact hcr
        · rw [if_neg hcr] at hd
          exact absurd hd (by simp)

theorem to_cell_err [DecidableEq K] (r : Raster K) (p : K × K) (e : Err)
    (h : to_cell r p = Except.error e) : e = Err.outOfBounds := by
  unfold to_cell at h
  by_cases hc : inEnv r.xs p.1 = true ∧ inEnv r.ys p.2 = true
  · rw [if_pos hc] at h
    exact absurd h (by simp)
  · rw [if_neg hc] at h
    injection h with h
    rw [h]

theorem resolve_crossable [DecidableEq K] (r : Raster K) (sp gp : K × K)
    (bs : List K) (snapA snapB : Bool) (conn : Nat) (sc gc : Cell)
    (h : resolve_endpoints r sp gp bs snapA snapB conn =
      Except.ok (sc, gc)) :
    is_crossable r bs sc = true ∧ is_crossable r bs gc = true := by
  unfold resolve_endpoints at h
  cases h1 : to_cell r sp with
  | error e => rw [h1] at h; exact absurd h (by simp)
  | ok sc0 =>
      rw [h1] at h
      cases h2 : to_cell r gp with
      | error e => rw [h2] at h; exact absurd h (by simp)
      | ok gc0 =>
          rw [h2] at h
          dsimp only at h
          by_cases h3 : (snapA = false ∧ is_crossable r bs sc0 = false) ∨
              (snapB = false ∧ is_crossable r bs gc0 = false)
          · rw [if_pos h3] at h
            exact absurd h (by simp)
          · rw [if_neg h3] at h
            by_cases h4 : conn = 4 ∨ conn = 8
            · rw [if_pos h4] at h
              cases h5 : snap r bs sc0 with
              | none => rw [h5] at h; exact absurd h (by simp)
              | some sc1 =>
                  rw [h5] at h
                  cases h6 : snap r bs gc0 with
                  | none => rw [h6] at h; exact absurd h (by simp)
                  | some gc1 =>
                      rw [h6] at h
                      simp only [Except.ok.injEq, Prod.mk.injEq] at h
                      obtain ⟨hsc, hgc⟩ := h
                      subst hsc
                      subst hgc
                      exact ⟨snap_crossable r bs sc0 sc1 h5,
                        snap_crossable r bs gc0 gc1 h6⟩
            · rw [if_neg h4] at h
              exact absurd h (by simp)

theorem resolve_err_kind [DecidableEq K] (r : Raster K) (sp gp : K × K)
    (bs : List K) (snapA snapB : Bool) (conn : Nat) (e : Err)
    (h : resolve_endpoints r sp gp bs snapA snapB conn = Except.error e) :
    e ≠ Err.noPathFound ∧ e ≠ Err.fuelExhausted := by
  unfold resolve_endpoints at h
  cases h1 : to_cell r sp with
  | error e1 =>
      rw [h1] at h
      injection h with h
      subst h
      rw [to_cell_err r sp e1 h1]
      exact ⟨by simp, by simp⟩
  | ok sc0 =>
      rw [h1] at h
      cases h2 : to_cell r gp with
      | error e2 =>
          rw [h2] at h
          injection h with h
          subst h
          rw [to_cell_err r gp e2 h2]
          exact ⟨by simp, by simp⟩
      | ok gc0 =>
          rw [h2] at h
          dsimp only at h
          by_cases h3 : (snapA = false ∧ is_crossable r bs sc0 = false) ∨
              (snapB = false ∧ is_crossable r bs gc0 = false)
          · rw [if_pos h3] at h
            injection h with h
            subst h
            exact ⟨by simp, by simp⟩
          · rw [if_neg h3] at h
            by_cases h4 : conn = 4 ∨ conn = 8
            · rw [if_pos h4] at h
              cases h5 : snap r bs sc0 with
              | none =>
                  rw [h5] at h
                  injection h with h
                  subst h
                  exact ⟨by simp, by simp⟩
              | some sc1 =>
                  rw [h5] at h
                  cases h6 : snap r bs gc0 with
                  | none =>
                      rw [h6] at h
                      injection h with h
                      subst h
                      exact ⟨by simp, by simp⟩
                  | some gc1 =>
                      rw [h6] at h
                      exact absurd h (by simp)
            · rw [if_neg h4] at h
              injection h with h
              subst h
              exact ⟨by simp, by simp⟩

theorem a_star_search_of_resolve [DecidableEq K] (r : Raster K)
    (sp gp : K × K) (bs : List K) (snapA snapB : Bool) (conn : Nat)
    (w hfn : Cell → Cell → K) (sc gc : Cell)
    (h : resolve_endpoints r sp gp bs snapA snapB conn =
      Except.ok (sc, gc)) :
    a_star_search r sp gp bs snapA snapB conn w hfn =
      (search r ⟨bs, conn, w, hfn⟩ sc gc).map (fun p => rasterize p r) := by
  unfold a_star_search a_star_run
  rw [h]
  rfl

theorem a_star_search_of_resolve_err [DecidableEq K] (r : Raster K)
    (sp gp : K × K) (bs : List K) (snapA snapB : Bool) (conn : Nat)
    (w hfn : Cell → Cell → K) (e : Err)
    (h : resolve_endpoints r sp gp bs snapA snapB conn = Except.error e) :
    a_star_search r sp gp bs snapA snapB conn w hfn = Except.error e := by
  unfold a_star_search a_star_run
  rw [h]

/-- Claim C2: every path returned by the search connects the (snapped)
start cell to the (snapped) goal cell: consecutive cells are neighbor
pairs under the configured connectivity, every cell is crossable, the
first cell is the resolved start and the last the resolved goal. -/
theorem search_path_valid [DecidableEq K] (r : Raster K) (sp gp : K × K)
    (bs : List K) (snapA snapB : Bool) (conn : Nat)
    (w hfn : Cell → Cell → K) (sc gc : Cell) (p : List Cell)
    (hw : WPos r ⟨bs, conn, w, hfn⟩) (hh : HCons r ⟨bs, conn, w, hfn⟩ gc)
    (hres : resolve_endpoints r sp gp bs snapA snapB conn =
      Except.ok (sc, gc))
    (hrun : search r ⟨bs, conn, w, hfn⟩ sc gc = Except.ok p) :
    Connects r bs conn sc gc p := by
  have hs := (resolve_crossable r sp gp bs snapA snapB conn sc gc hres).1
  have hinv := inv_init r ⟨bs, conn, w, hfn⟩ sc gc hs
  exact (aLoop_ok r ⟨bs, conn, w, hfn⟩ sc gc hw hh _ _ p hinv hrun).1

/-- A 2×2 integer raster with all cells crossable. -/
def sample22 : Raster ℤ :=
  { height := 2, width := 2, ys := [0, 1], xs := [0, 1],
    values := [1, 1, 1, 1], nodata := -1, dtype := "int" }

theorem search_path_valid_witness :
    Connects sample22 [0] 4 (0, 0) (1, 1) [(0, 0), (1, 0), (1, 1)] :=
  search_path_valid sample22 (0, 0) (1, 1) [0] false false 4 intOne intZero
    (0, 0) (1, 1) [(0, 0), (1, 0), (1, 1)]
    (fun _ _ _ => by show (0 : ℤ) < 1; norm_num)
    (fun _ _ _ => by show (0 : ℤ) ≤ 1 + 0; norm_num)
    (by decide) (by decide)

/-- A 5×5 integer raster, all cells crossable value 1 except a full barrier
row of zeros (row 2) separating the top rows from the bottom rows. -/
def grid5 : Raster ℤ :=
  { height := 5, width := 5
    ys := [0, 1, 2, 3, 4]
    xs := [0, 1, 2, 3, 4]
    values :=
      [1, 1, 1, 1, 1,
       1, 1, 1, 1, 1,
       0, 0, 0, 0, 0,
       1, 1, 1, 1, 1,
       1, 1, 1, 1, 1]
    nodata := -1
    dtype := "int" }

/-- Claim C3: the operation fails with NoPathFound exactly when both
endpoints resolve to valid crossable cells but no sequence of crossable
neighbor cells under the chosen connectivity joins them; in particular, on
the 5×5 grid with a full barrier row and no gap, the search from (0,0) to
(4,4) returns NoPathFound. -/
theorem noPathFound_characterization :
    (∀ (K2 : Type) [LinearOrderedCommRing K2] [DecidableEq K2]
      (r : Raster K2) (sp gp : K2 × K2) (bs : List K2) (snapA snapB : Bool)
      (conn : Nat) (w hfn : Cell → Cell → K2),
      WPos r ⟨bs, conn, w, hfn⟩ →
      (∀ g', HCons r ⟨bs, conn, w, hfn⟩ g') →
      (a_star_search r sp gp bs snapA snapB conn w hfn =
          Except.error Err.noPathFound ↔
        ∃ sc gc, resolve_endpoints r sp gp bs snapA snapB conn =
            Except.ok (sc, gc) ∧
          is_crossable r bs sc = true ∧ is_crossable r bs gc = true ∧
          ¬∃ p, Connects r bs conn sc gc p)) ∧
    a_star_search grid5 (0, 0) (4, 4) [0] false false 8 intOne intZero =
      Except.error Err.noPathFound := by
  constructor
  · intro K2 inst1 inst2 r sp gp bs snapA snapB conn w hfn hw hh
    constructor
    · intro h
      cases hres : resolve_endpoints r sp gp bs snapA snapB conn with
      | error e =>
          rw [a_star_search_of_resolve_err r sp gp bs snapA snapB conn
            w hfn e hres] at h
          injection h with h
          exact absurd h
            (resolve_err_kind r sp gp bs snapA snapB conn e hres).1
      | ok pr =>
          obtain ⟨sc, gc⟩ := pr
          have hcross :=
            resolve_crossable r sp gp bs snapA snapB conn sc gc hres
          rw [a_star_search_of_resolve r sp gp bs snapA snapB conn
            w hfn sc gc hres] at h
          cases hs : search r ⟨bs, conn, w, hfn⟩ sc gc with
          | ok p =>
              rw [hs] at h
              exact absurd h (by simp [Except.map])
          | error e =>
              rw [hs] at h
              simp only [Except.map] at h
              injection h with h
              subst h
              refine ⟨sc, gc, rfl, hcross.1, hcross.2, ?_⟩
              exact aLoop_noPath r ⟨bs, conn, w, hfn⟩ sc gc hw (hh gc) _ _
                (inv_init r ⟨bs, conn, w, hfn⟩ sc gc hcross.1) hs
    · rintro ⟨sc, gc, hres, hcs, hcg, hnc⟩
      rw [a_star_search_of_resolve r sp gp bs snapA snapB conn
        w hfn sc gc hres]
      have hinv := inv_init r ⟨bs, conn, w, hfn⟩ sc gc hcs
      have hcard : (validCells r bs \
          (initState r sc).closed).card < r.height * r.width + 1 := by
        show ((validCells r bs) \ ∅).card < _
        rw [Finset.sdiff_empty]
        have := validCells_card r bs
        omega
      rcases aLoop_cases (⟨bs, conn, w, hfn⟩ : Cfg K2) gc
          (r.height * r.width + 1) (initState r sc) with ⟨p, hok⟩ | hnp | hfe
      · have hc := (aLoop_ok r ⟨bs, conn, w, hfn⟩ sc gc hw (hh gc) _ _ p
          hinv hok).1
        exact absurd ⟨p, hc⟩ hnc
      · have hsearch : search r ⟨bs, conn, w, hfn⟩ sc gc =
            Except.error Err.noPathFound := hnp
        rw [hsearch]
        rfl
      · exact absurd hfe (aLoop_fuel r ⟨bs, conn, w, hfn⟩ sc gc hw (hh gc)
          _ _ hinv hcard)
  · decide

theorem noPathFound_characterization_witness :
    ∃ sc gc, resolve_endpoints grid5 (0, 0) (4, 4) [0] false false 8 =
        Except.ok (sc, gc) ∧
      is_crossable grid5 [0] sc = true ∧ is_crossable grid5 [0] gc = true ∧
      ¬∃ p, Connects grid5 [0] 8 sc gc p :=
  (noPathFound_characterization.1 ℤ grid5 (0, 0) (4, 4) [0] false false 8
      intOne intZero
      (fun _ _ _ => by show (0 : ℤ) < 1; norm_num)
      (fun _ _ _ _ => by show (0 : ℤ) ≤ 1 + 0; norm_num)).mp
    noPathFound_characterization.2

end Xrs
